import Mathlib

/-!
Verification of the resilient external-job client core of the
`video-analyzer` repository: the retrying invoker with backoff
(`_generate_with_retry`), the job lifecycle tracker workflows
(`select_highlights`, `select_and_extract_thumbnails`), the interval
normalizer (`normalize_highlights`) and the response extractors
(`parse_and_validate`, `parse_and_validate_json`).

Numeric values (Python floats) are modelled as rationals `ℚ`; remote
calls, random jitter draws and the strict JSON parser are modelled as
explicit oracle parameters.
-/

namespace VideoAnalyzer

/-! ### Data model: highlight records (src/gemini_highlights.py) -/

/-- One highlight record as built by `parse_and_validate` and consumed by
`normalize_highlights` in `src/gemini_highlights.py`: a time interval in
seconds plus string metadata. -/
structure Highlight where
  start_seconds : ℚ
  end_seconds : ℚ
  label : String
  why_high_converting : String
  emotional_hook : String
  suggested_caption : String
deriving DecidableEq, Repr

/-- Comparison key used by `sorted(items, key=lambda x: x["start_seconds"])`. -/
def startLE (a b : Highlight) : Prop :=
  a.start_seconds ≤ b.start_seconds

instance : DecidableRel startLE := fun a b =>
  inferInstanceAs (Decidable (a.start_seconds ≤ b.start_seconds))

instance : IsTotal Highlight startLE :=
  ⟨fun a b => le_total a.start_seconds b.start_seconds⟩

instance : IsTrans Highlight startLE :=
  ⟨fun _ _ _ hab hbc => le_trans hab hbc⟩

/-! ### Interval normalizer (`normalize_highlights`, gemini_highlights.py 349-386) -/

/-- The end timestamp after the duration repair step of `normalize_highlights`:
`if duration < 4.5 or duration > 5.5: end = min(start + 5.0, duration_seconds)`. -/
def adjustEnd (duration_seconds : ℚ) (item : Highlight) : ℚ :=
  if item.end_seconds - item.start_seconds < 9/2 ∨ 11/2 < item.end_seconds - item.start_seconds
  then min (item.start_seconds + 5) duration_seconds
  else item.end_seconds

/-- The overlap/spacing test of `normalize_highlights` against one already
accepted interval: `start < prev["end_seconds"] + 2.0 and end > prev["start_seconds"] - 2.0`. -/
def overlapsPrev (start e : ℚ) (prev : Highlight) : Bool :=
  decide (start < prev.end_seconds + 2) && decide (prev.start_seconds - 2 < e)

/-- One iteration of the accumulation loop of `normalize_highlights`: repair
the duration, test the candidate against every already accepted interval, and
append it when it does not collide. -/
def normStep (duration_seconds : ℚ) (normalized : List Highlight) (item : Highlight) :
    List Highlight :=
  let start := item.start_seconds
  let e := adjustEnd duration_seconds item
  if normalized.any (overlapsPrev start e) then normalized
  else normalized ++ [{ item with start_seconds := start, end_seconds := e }]

/-- `normalize_highlights(items, duration_seconds)` from
`src/gemini_highlights.py`: return `[]` on empty input, sort by start,
greedily accept candidates under the duration-repair and 2 s spacing rules,
and cap the result at 10 entries. -/
def normalize_highlights (items : List Highlight) (duration_seconds : ℚ) :
    List Highlight :=
  match items with
  | [] => []
  | _ :: _ =>
    ((List.insertionSort startLE items).foldl (normStep duration_seconds) []).take 10

/-- Shorthand for a candidate interval whose metadata strings are empty. -/
def mkInterval (s e : ℚ) : Highlight :=
  ⟨s, e, "", "", "", ""⟩

/-- The input list of concrete scenario A of the specification. -/
def scenarioA : List Highlight :=
  [mkInterval 1 (6/5), mkInterval 2 (11/5), mkInterval (21/10) (23/10),
   mkInterval 10 (51/5)]

/-- Separation between an accepted interval `a` and a later accepted interval
`b`: the negation of the overlap test of `normalize_highlights`. -/
def Sep (a b : Highlight) : Prop :=
  ¬(b.start_seconds < a.end_seconds + 2 ∧ a.start_seconds - 2 < b.end_seconds)

/-- Combined loop invariant relation: accepted intervals are ordered by start
and pairwise separated. -/
def OrdSep (a b : Highlight) : Prop :=
  startLE a b ∧ Sep a b

/-! ### Retrying invoker (`_generate_with_retry`, gemini_highlights.py 46-73)

The remote call is an oracle `op : ℕ → CallResult α` giving the outcome of
the n-th call (0-indexed), and the random jitter draws
`random.uniform(0.05, 0.25)` are an oracle `jitter : ℕ → ℚ` giving the draw
used after the n-th call. -/

/-- Exception classes caught by the retry loop; `other` stands for every
exception outside `ResourceExhausted`, `ServiceUnavailable` and
`DeadlineExceeded`, which the loop does not catch. -/
inductive ExcKind where
  | resourceExhausted
  | serviceUnavailable
  | deadlineExceeded
  | other
deriving DecidableEq, Repr

/-- A raised exception: its class together with the server-suggested retry
delay that `_parse_retry_delay` extracts from its text (`-1` when absent). -/
structure Exc where
  kind : ExcKind
  suggested_delay : ℚ
deriving DecidableEq, Repr

/-- Outcome of one `model.generate_content` call. -/
inductive CallResult (α : Type) where
  | ok (v : α)
  | exc (e : Exc)

/-- Observable behaviour of one run of `_generate_with_retry`: the returned
value or propagated exception, the list of `time.sleep` waits in order, and
the number of `generate_content` calls made. -/
structure RunResult (α : Type) where
  result : Except Exc α
  waits : List ℚ
  calls : ℕ

/-- The retry loop body. `remaining` counts the retries still allowed
(`max_retries - attempt` in the source), `idx` is the index of the call about
to be made, and `delay` is the current geometric backoff value. -/
def genRetryAux {α : Type} (op : ℕ → CallResult α) (jitter : ℕ → ℚ) (backoff : ℚ) :
    ℕ → ℕ → ℚ → RunResult α
  | remaining, idx, delay =>
    match op idx with
    | .ok v => ⟨.ok v, [], 1⟩
    | .exc e =>
      if e.kind = .other then ⟨.error e, [], 1⟩
      else
        match remaining with
        | 0 => ⟨.error e, [], 1⟩
        | r + 1 =>
          let base := if e.kind = .resourceExhausted ∧ 0 < e.suggested_delay
                      then e.suggested_delay else delay
          let wait := base * (1 + jitter idx)
          let rest := genRetryAux op jitter backoff r (idx + 1) (delay * backoff)
          ⟨rest.result, wait :: rest.waits, rest.calls + 1⟩

/-- The starting backoff value `delay = max(0.5, initial_delay)`. -/
def initialEffectiveDelay (initial_delay : ℚ) : ℚ :=
  max (1/2) initial_delay

/-- `_generate_with_retry(model, parts, max_retries, initial_delay, backoff)`
as a function of the call and jitter oracles. -/
def generate_with_retry {α : Type} (op : ℕ → CallResult α) (jitter : ℕ → ℚ)
    (max_retries : ℕ) (initial_delay backoff : ℚ) : RunResult α :=
  genRetryAux op jitter backoff max_retries 0 (initialEffectiveDelay initial_delay)

/-! ### Adaptive ETA estimator (select_highlights polling loop 457-468 and
utils/progress.py) -/

/-- One iteration of the estimate revision in the polling loop:
`if elapsed >= est_total * 0.9: est_total = max(est_total, elapsed * 1.25)`. -/
def etaStep (est_total elapsed : ℚ) : ℚ :=
  if est_total * (9/10) ≤ elapsed then max est_total (elapsed * (5/4)) else est_total

/-- The reported time remaining: `remaining = max(0.0, est_total - elapsed)`. -/
def reportedRemaining (est_total elapsed : ℚ) : ℚ :=
  max 0 (est_total - elapsed)

/-- The estimate after folding the revision step over a sequence of elapsed
samples, one per loop iteration. -/
def estAfter (est0 : ℚ) (samples : List ℚ) : ℚ :=
  samples.foldl etaStep est0

/-- The estimate held after the first `n` iterations of the polling loop. -/
def estAt (est0 : ℚ) (samples : List ℚ) (n : ℕ) : ℚ :=
  estAfter est0 (samples.take n)

/-- `initial_processing_estimate(size_bytes, upload_duration_s)` from
`src/utils/progress.py`: a size heuristic and an upload-duration heuristic,
each clamped, averaged when the upload duration is known. -/
def initial_processing_estimate (size_bytes : ℚ) (upload_duration_s : Option ℚ) : ℚ :=
  let size_mb := size_bytes / 1000000
  let guess_by_size := max 30 (min (30 * 60) (30 + (8/10) * size_mb))
  match upload_duration_s with
  | none => guess_by_size
  | some u => (guess_by_size + max 20 (min (30 * 60) ((5/2) * u))) / 2

/-! ### Job lifecycle workflow traces (gemini_thumbnails.py 126-348,
gemini_highlights.py 432-533)

Control-flow skeletons of the two workflows, as functions from the abstract
outcomes of the remote interactions to the workflow outcome and the ordered
trace of remote calls issued. -/

/-- A remote interaction issued by a workflow. -/
inductive WfEvent where
  | upload
  | getFile
  | poll
  | generate
  | deleteFile
deriving DecidableEq, Repr

/-- How a workflow run terminates. -/
inductive WfOutcome where
  | success
  | exitError
  | interrupted
  | raised
deriving DecidableEq, Repr

/-- Abstract outcome of the processing poll loop: the asset reaches a
terminal state `ACTIVE`/`FAILED`, or the operator interrupts during
polling. -/
inductive PollResult where
  | ready
  | failed
  | interrupt
deriving DecidableEq, Repr

/-- Generation-and-extraction phase of `select_and_extract_thumbnails`
(the `try` body from the generate call to the metadata write, lines 255-340,
and the `finally` block at 341-348): on both exits, if the workflow uploaded
the asset itself, `genai.delete_file` is issued, and a failing delete is
swallowed by the inner `except Exception: pass`, so `deleteOk` cannot affect
the outcome. -/
def thumbsGenPhase (own_upload genOk deleteOk : Bool) : WfOutcome × List WfEvent :=
  ((if genOk then .success else .raised),
   [.generate] ++ (if own_upload then [.deleteFile] else []))

/-- Remainder of `select_and_extract_thumbnails` after the upload-or-reuse
step: the poll loop (exit paths: KeyboardInterrupt re-raised at 208-210,
`FAILED` state `sys.exit(1)` at 212-214) and then the generation phase. -/
def thumbsAfterUpload (own_upload : Bool) (poll : PollResult) (genOk deleteOk : Bool)
    (trace : List WfEvent) : WfOutcome × List WfEvent :=
  match poll with
  | .interrupt => (.interrupted, trace ++ [.poll])
  | .failed => (.exitError, trace ++ [.poll])
  | .ready =>
    let g := thumbsGenPhase own_upload genOk deleteOk
    (g.1, trace ++ [.poll] ++ g.2)

/-- `select_and_extract_thumbnails` from `src/gemini_thumbnails.py` as a
trace function: `file_id` says whether the caller supplied a pre-existing
remote handle (the reuse path, `own_upload = False`), `getFileOk` whether
retrieving that handle succeeds, `poll` how the poll loop ends, `genOk`
whether the generation-and-extraction phase succeeds, and `deleteOk` whether
the teardown delete succeeds. -/
def select_and_extract_thumbnails (file_id getFileOk : Bool) (poll : PollResult)
    (genOk deleteOk : Bool) : WfOutcome × List WfEvent :=
  if file_id then
    if getFileOk then thumbsAfterUpload false poll genOk deleteOk [.getFile]
    else (.exitError, [.getFile])
  else
    thumbsAfterUpload true poll genOk deleteOk [.upload]

/-- Generation phase of `select_highlights` (the `try` body at 490-529 and
the `except Exception` handler at 531-533, which turns any generation
failure into `sys.exit(1)`): no remote delete is issued on any path. -/
def highlightsGenPhase (genOk : Bool) : WfOutcome × List WfEvent :=
  ((if genOk then .success else .exitError), [.generate])

/-- Remainder of `select_highlights` after the upload-or-reuse step. -/
def highlightsAfterUpload (poll : PollResult) (genOk : Bool)
    (trace : List WfEvent) : WfOutcome × List WfEvent :=
  match poll with
  | .interrupt => (.interrupted, trace ++ [.poll])
  | .failed => (.exitError, trace ++ [.poll])
  | .ready =>
    let g := highlightsGenPhase genOk
    (g.1, trace ++ [.poll] ++ g.2)

/-- `select_highlights` from `src/gemini_highlights.py` as a trace
function. -/
def select_highlights (file_id getFileOk : Bool) (poll : PollResult)
    (genOk : Bool) : WfOutcome × List WfEvent :=
  if file_id then
    if getFileOk then highlightsAfterUpload poll genOk [.getFile]
    else (.exitError, [.getFile])
  else
    highlightsAfterUpload poll genOk [.upload]

/-! ### Response extractor (parse_and_validate, gemini_highlights.py 284-346;
parse_and_validate_json, gemini_editing_guide.py 207-294)

The strict JSON parser `json.loads` is an oracle parameter
`loads : String → Option JVal`; everything around it — fence stripping,
outermost-bracket location, and the item validation loop — is concrete. -/

/-- A parsed JSON value. -/
inductive JVal where
  | null
  | bool (b : Bool)
  | num (q : ℚ)
  | str (s : String)
  | arr (elems : List JVal)
  | obj (fields : List (String × JVal))

/-- Index of the last occurrence of a character, as Python `str.rfind`. -/
def lastIdxOf (c : Char) (cs : List Char) : Option ℕ :=
  match cs.reverse.findIdx? (· == c) with
  | none => none
  | some i => some (cs.length - 1 - i)

/-- The fence-stripping and outermost-bracket location steps shared by
`parse_and_validate` (gemini_highlights.py 286-298) and
`parse_and_validate_json` (gemini_editing_guide.py 210-220): strip
whitespace, take the interior of the first fenced block when a fence is
present, then cut from the first opening brace to the last closing brace. -/
def extractJsonText (raw_text : String) : String :=
  let text := raw_text.trim
  let text :=
    if (text.splitOn "```json").length > 1 then
      (((text.splitOn "```json").getD 1 "").splitOn "```").getD 0 ""
    else if (text.splitOn "```").length > 1 then
      (((text.splitOn "```").getD 1 "").splitOn "```").getD 0 ""
    else text
  let cs := text.toList
  match cs.findIdx? (· == '{'), lastIdxOf '}' cs with
  | some s, some e => if s < e then ((cs.drop s).take (e + 1 - s)).asString else text
  | _, _ => text

/-- Numeric value of a list of decimal digit characters. -/
def digitsVal (cs : List Char) : ℚ :=
  cs.foldl (fun n c => n * 10 + ((c.toNat - 48 : ℕ) : ℚ)) 0

/-- Python `float(str)` on unsigned decimal forms: digits with an optional
fraction part; anything else fails. -/
def parseUnsignedDecimal (s : String) : Option ℚ :=
  match s.splitOn "." with
  | [a] =>
    if 0 < a.length ∧ a.toList.all (·.isDigit)
    then some (digitsVal a.toList) else none
  | [a, b] =>
    if 0 < a.length + b.length ∧ a.toList.all (·.isDigit) ∧ b.toList.all (·.isDigit)
    then some (digitsVal a.toList + digitsVal b.toList / (10 : ℚ) ^ b.length)
    else none
  | _ => none

/-- Python `float(str)` with an optional sign, on the decimal forms relevant
here; exponent and infinity forms are treated as failures. -/
def pyFloatString (s : String) : Option ℚ :=
  let t := s.trim
  if t.startsWith "-" then (parseUnsignedDecimal (t.drop 1)).map (fun q => -q)
  else if t.startsWith "+" then parseUnsignedDecimal (t.drop 1)
  else parseUnsignedDecimal t

/-- Python `float(value)` on a JSON value: numbers pass through, booleans
coerce to 0 or 1, numeric strings are parsed, and every other shape raises
(modelled as `none`, which makes the surrounding item loop skip the item). -/
def pyFloat : JVal → Option ℚ
  | .num q => some q
  | .bool b => some (if b then 1 else 0)
  | .str s => pyFloatString s
  | _ => none

/-- Python `item.get(k)` on a parsed JSON object (first binding wins). -/
def jGet : JVal → String → Option JVal
  | .obj fields, k => (fields.find? (fun p => p.1 == k)).map (fun p => p.2)
  | _, _ => none

/-- Python `float(item.get(k, 0))`: a missing key defaults to 0, a present
value is coerced. -/
def itemFloat (item : JVal) (k : String) : Option ℚ :=
  match jGet item k with
  | none => some 0
  | some v => pyFloat v

/-- The label whitelist of `parse_and_validate`. -/
def allowedLabels : List String :=
  ["dominance", "technical_exchange", "comeback", "submission_threat",
   "near_fall", "scramble", "victory", "control", "takedown"]

/-- `str(item.get("label", "")).strip().lower()` for string-typed labels;
any non-string value stringifies to something outside the whitelist and so
behaves like the empty string here. -/
def itemLabel (item : JVal) : String :=
  match jGet item "label" with
  | some (.str s) => s.trim.toLower
  | _ => ""

/-- `str(item.get(k, "")).strip()` for string-typed metadata; non-string
values are modelled as the empty string. -/
def strField (item : JVal) (k : String) : String :=
  match jGet item k with
  | some (.str s) => s.trim
  | _ => ""

/-- The endpoint arithmetic of the item loop of `parse_and_validate`
(lines 325-332): swap when reversed, clamp into `[0, duration]`, widen
sub-half-second stubs to 5 s. Returns the final `(start_s, end_s)` pair. -/
def clampItem (duration_seconds s0 e0 : ℚ) : ℚ × ℚ :=
  let p := if e0 < s0 then (e0, s0) else (s0, e0)
  let s1 := max 0 (min p.1 duration_seconds)
  let e1 := max s1 (min p.2 duration_seconds)
  let e2 := if e1 - s1 < 1/2 then min (s1 + 5) duration_seconds else e1
  (s1, e2)

/-- The body of the item loop of `parse_and_validate` (lines 316-344):
normalize the label, coerce the endpoints, repair them with `clampItem`,
truncate the caption; a coercion failure skips the item. -/
def processItem (duration_seconds : ℚ) (item : JVal) : Option Highlight :=
  match item with
  | .obj _ =>
    let label0 := itemLabel item
    let label := if allowedLabels.contains label0 then label0 else "technical_exchange"
    match itemFloat item "start_seconds", itemFloat item "end_seconds" with
    | some s0, some e0 =>
      some ⟨(clampItem duration_seconds s0 e0).1, (clampItem duration_seconds s0 e0).2,
        label,
        strField item "why_high_converting",
        strField item "emotional_hook",
        (strField item "suggested_caption").take 50⟩
    | _, _ => none
  | _ => none

/-- `parse_and_validate(raw_text, duration_seconds)` from
`src/gemini_highlights.py` over the parser oracle: extract the candidate
JSON text, parse it, return `[]` on parse failure or a missing
`highlights` list, else validate the items. -/
def parse_and_validate (loads : String → Option JVal) (raw_text : String)
    (duration_seconds : ℚ) : List Highlight :=
  match loads (extractJsonText raw_text) with
  | none => []
  | some data =>
    match jGet data "highlights" with
    | some (.arr items) => items.filterMap (processItem duration_seconds)
    | _ => []

/-- The empty guide structure returned by `parse_and_validate_json` on parse
failure. -/
def emptyEditGuide : JVal :=
  .obj [("guide_version", .str "1.0.0"), ("video", .obj []),
        ("edits", .arr []), ("notes", .obj [])]

/-- `parse_and_validate_json(raw_text, duration_seconds, max_edits)` from
`src/gemini_editing_guide.py`, with the post-parse edit normalization
(lines 228-294) abstracted as the parameter `processEdits`; the extraction
pipeline and the parse-failure branch are concrete. -/
def parse_and_validate_json (loads : String → Option JVal)
    (processEdits : JVal → ℚ → ℕ → JVal) (raw_text : String)
    (duration_seconds : ℚ) (max_edits : ℕ) : JVal :=
  match loads (extractJsonText raw_text) with
  | none => emptyEditGuide
  | some data => processEdits data duration_seconds max_edits

/-! ### Lemmas: the accumulation loop of the normalizer -/

lemma overlapsPrev_eq_false {s e : ℚ} {p : Highlight} :
    overlapsPrev s e p = false ↔ ¬(s < p.end_seconds + 2 ∧ p.start_seconds - 2 < e) := by
  simp [overlapsPrev]

/-- The accumulation loop of `normalize_highlights` keeps the accepted list
ordered-and-separated, and every accepted interval is an input candidate with
only its end timestamp rewritten by the duration repair. -/
lemma foldl_normStep_spec (D : ℚ) :
    ∀ (l acc : List Highlight),
      List.Sorted startLE l →
      (∀ p ∈ acc, ∀ x ∈ l, p.start_seconds ≤ x.start_seconds) →
      List.Pairwise OrdSep acc →
      List.Pairwise OrdSep (l.foldl (normStep D) acc) ∧
        ∀ h ∈ l.foldl (normStep D) acc,
          h ∈ acc ∨ ∃ x ∈ l, h = { x with end_seconds := adjustEnd D x } := by
  intro l
  induction l with
  | nil => intro acc _ _ hacc; exact ⟨hacc, fun h hh => Or.inl hh⟩
  | cons x xs ih =>
    intro acc hsorted hle hacc
    have hsorted' : List.Sorted startLE xs := hsorted.of_cons
    have hxle : ∀ y ∈ xs, x.start_seconds ≤ y.start_seconds :=
      fun y hy => List.rel_of_sorted_cons hsorted y hy
    rw [List.foldl_cons]
    by_cases hover : acc.any (overlapsPrev x.start_seconds (adjustEnd D x)) = true
    · have hstep : normStep D acc x = acc := by
        simp [normStep, hover]
      rw [hstep]
      obtain ⟨h1, h2⟩ := ih acc hsorted'
        (fun p hp y hy => hle p hp y (List.mem_cons_of_mem x hy)) hacc
      refine ⟨h1, fun h hh => ?_⟩
      rcases h2 h hh with hmem | ⟨y, hy, hform⟩
      · exact Or.inl hmem
      · exact Or.inr ⟨y, List.mem_cons_of_mem x hy, hform⟩
    · have hnone : ∀ p ∈ acc, overlapsPrev x.start_seconds (adjustEnd D x) p = false := by
        intro p hp
        rcases Bool.eq_false_or_eq_true (overlapsPrev x.start_seconds (adjustEnd D x) p)
          with h | h
        · exact absurd (List.any_eq_true.mpr ⟨p, hp, h⟩) hover
        · exact h
      have hx' : { x with end_seconds := adjustEnd D x } =
          { x with start_seconds := x.start_seconds, end_seconds := adjustEnd D x } := rfl
      have hstep : normStep D acc x =
          acc ++ [{ x with end_seconds := adjustEnd D x }] := by
        simp only [normStep, hover]
        rw [if_neg (by simp [hover]), hx']
      rw [hstep]
      have hacc' : List.Pairwise OrdSep (acc ++ [{ x with end_seconds := adjustEnd D x }]) := by
        rw [List.pairwise_append]
        refine ⟨hacc, List.pairwise_singleton _ _, ?_⟩
        intro a ha b hb
        rw [List.mem_singleton] at hb
        subst hb
        constructor
        · exact hle a ha x (List.mem_cons_self x xs)
        · intro hcon
          have := (overlapsPrev_eq_false.mp (hnone a ha))
          exact this hcon
      have hle' : ∀ p ∈ acc ++ [{ x with end_seconds := adjustEnd D x }],
          ∀ y ∈ xs, p.start_seconds ≤ y.start_seconds := by
        intro p hp y hy
        rcases List.mem_append.mp hp with hp | hp
        · exact hle p hp y (List.mem_cons_of_mem x hy)
        · rw [List.mem_singleton] at hp
          subst hp
          exact hxle y hy
      obtain ⟨h1, h2⟩ := ih _ hsorted' hle' hacc'
      refine ⟨h1, fun h hh => ?_⟩
      rcases h2 h hh with hmem | ⟨y, hy, hform⟩
      · rcases List.mem_append.mp hmem with hmem | hmem
        · exact Or.inl hmem
        · rw [List.mem_singleton] at hmem
          exact Or.inr ⟨x, List.mem_cons_self x xs, hmem⟩
      · exact Or.inr ⟨y, List.mem_cons_of_mem x hy, hform⟩

/-- Structural description of the output of `normalize_highlights`: it is
pairwise ordered-and-separated, and every entry is an input candidate with
only the end timestamp rewritten. -/
lemma normalize_highlights_spec (items : List Highlight) (D : ℚ) :
    List.Pairwise OrdSep (normalize_highlights items D) ∧
      ∀ h ∈ normalize_highlights items D,
        ∃ x ∈ items, h = { x with end_seconds := adjustEnd D x } := by
  match items with
  | [] => exact ⟨List.Pairwise.nil, by simp [normalize_highlights]⟩
  | a :: l =>
    have hs : List.Sorted startLE (List.insertionSort startLE (a :: l)) :=
      List.sorted_insertionSort startLE (a :: l)
    obtain ⟨h1, h2⟩ := foldl_normStep_spec D (List.insertionSort startLE (a :: l)) []
      hs (by simp) List.Pairwise.nil
    constructor
    · exact h1.sublist (List.take_sublist 10 _)
    · intro h hh
      have hh' : h ∈ (List.insertionSort startLE (a :: l)).foldl (normStep D) [] :=
        List.take_subset 10 _ hh
      rcases h2 h hh' with hmem | ⟨x, hx, hform⟩
      · simp at hmem
      · exact ⟨x, (List.mem_insertionSort startLE).mp hx, hform⟩

/-- The duration repair is a fixed point on already repaired intervals. -/
lemma adjustEnd_idem (D : ℚ) (x : Highlight) :
    adjustEnd D { x with end_seconds := adjustEnd D x } = adjustEnd D x := by
  by_cases hc : x.end_seconds - x.start_seconds < 9/2 ∨ 11/2 < x.end_seconds - x.start_seconds
  · show (if _ then min (x.start_seconds + 5) D else adjustEnd D x) = adjustEnd D x
    have hx : adjustEnd D x = min (x.start_seconds + 5) D := by
      rw [adjustEnd, if_pos hc]
    rw [hx]
    split <;> rfl
  · show (if _ then min (x.start_seconds + 5) D else adjustEnd D x) = adjustEnd D x
    have hx : adjustEnd D x = x.end_seconds := by
      rw [adjustEnd, if_neg hc]
    rw [hx, if_neg hc]

/-- On a list of already repaired, pairwise separated candidates the
accumulation loop accepts everything in order. -/
lemma foldl_normStep_id (D : ℚ) :
    ∀ (l acc : List Highlight),
      (∀ x ∈ l, adjustEnd D x = x.end_seconds) →
      List.Pairwise Sep l →
      (∀ p ∈ acc, ∀ x ∈ l, Sep p x) →
      l.foldl (normStep D) acc = acc ++ l := by
  intro l
  induction l with
  | nil => intro acc _ _ _; simp
  | cons x xs ih =>
    intro acc hfix hpair hsep
    rw [List.foldl_cons]
    have hover : acc.any (overlapsPrev x.start_seconds (adjustEnd D x)) = false := by
      rcases Bool.eq_false_or_eq_true (acc.any (overlapsPrev x.start_seconds (adjustEnd D x)))
        with h | h
      · obtain ⟨p, hp, hov⟩ := List.any_eq_true.mp h
        rw [hfix x (List.mem_cons_self x xs)] at hov
        have hcon : x.start_seconds < p.end_seconds + 2 ∧
            p.start_seconds - 2 < x.end_seconds := by
          simpa [overlapsPrev] using hov
        exact absurd hcon (hsep p hp x (List.mem_cons_self x xs))
      · exact h
    have heta : ({ x with start_seconds := x.start_seconds, end_seconds := adjustEnd D x } : Highlight) = x := by
      rw [hfix x (List.mem_cons_self x xs)]
    have hstep : normStep D acc x = acc ++ [x] := by
      simp only [normStep, hover]
      rw [if_neg (by simp), heta]
    rw [hstep]
    have hsep' : ∀ p ∈ acc ++ [x], ∀ y ∈ xs, Sep p y := by
      intro p hp y hy
      rcases List.mem_append.mp hp with hp | hp
      · exact hsep p hp y (List.mem_cons_of_mem x hy)
      · rw [List.mem_singleton] at hp
        subst hp
        exact (List.pairwise_cons.mp hpair).1 y hy
    rw [ih (acc ++ [x]) (fun y hy => hfix y (List.mem_cons_of_mem x hy))
      (List.Pairwise.of_cons hpair) hsep']
    simp

/-- Output intervals of the normalizer are already repaired. -/
lemma normalize_output_fixed (items : List Highlight) (D : ℚ) :
    ∀ h ∈ normalize_highlights items D, adjustEnd D h = h.end_seconds := by
  intro h hh
  obtain ⟨x, _, hform⟩ := (normalize_highlights_spec items D).2 h hh
  subst hform
  exact adjustEnd_idem D x

/-- The normalizer output is sorted ascending by start. -/
lemma normalize_output_sorted (items : List Highlight) (D : ℚ) :
    List.Sorted startLE (normalize_highlights items D) :=
  ((normalize_highlights_spec items D).1).imp (fun h => h.1)

/-- The normalizer output is pairwise separated in order of appearance. -/
lemma normalize_output_sep (items : List Highlight) (D : ℚ) :
    List.Pairwise Sep (normalize_highlights items D) :=
  ((normalize_highlights_spec items D).1).imp (fun h => h.2)

/-- The normalizer output has at most 10 entries. -/
lemma normalize_length_le (items : List Highlight) (D : ℚ) :
    (normalize_highlights items D).length ≤ 10 := by
  match items with
  | [] => simp [normalize_highlights]
  | a :: l => exact List.length_take_le 10 _

/-- Evaluation of the normalizer on the concrete input of scenario A. -/
lemma scenarioA_eval :
    normalize_highlights scenarioA 100 = [mkInterval 1 6, mkInterval 10 15] := by
  norm_num [normalize_highlights, scenarioA, mkInterval, List.insertionSort,
    List.orderedInsert, startLE, normStep, adjustEnd, overlapsPrev]

/-! ### Lemmas: well-formedness guaranteed by the extractor -/

/-- The endpoint repair of the item loop yields `start ≤ end` and
`start ≤ duration`. -/
lemma clampItem_wellformed (D s0 e0 : ℚ) (hD : 0 ≤ D) :
    (clampItem D s0 e0).1 ≤ (clampItem D s0 e0).2 ∧ (clampItem D s0 e0).1 ≤ D := by
  unfold clampItem
  dsimp only
  by_cases hswap : e0 < s0
  · rw [if_pos hswap]
    dsimp only
    constructor
    · split
      · exact le_min (by linarith) (max_le hD (min_le_right _ _))
      · exact le_max_left _ _
    · exact max_le hD (min_le_right _ _)
  · rw [if_neg hswap]
    dsimp only
    constructor
    · split
      · exact le_min (by linarith) (max_le hD (min_le_right _ _))
      · exact le_max_left _ _
    · exact max_le hD (min_le_right _ _)

/-- Every record the item loop emits is well formed. -/
lemma processItem_wellformed (D : ℚ) (hD : 0 ≤ D) (item : JVal) (h : Highlight)
    (hp : processItem D item = some h) :
    h.start_seconds ≤ h.end_seconds ∧ h.start_seconds ≤ D := by
  cases item with
  | obj fields =>
    simp only [processItem] at hp
    cases hs : itemFloat (JVal.obj fields) "start_seconds" with
    | none => rw [hs] at hp; exact absurd hp (by simp)
    | some s0 =>
      cases he : itemFloat (JVal.obj fields) "end_seconds" with
      | none => rw [hs, he] at hp; exact absurd hp (by simp)
      | some e0 =>
        rw [hs, he] at hp
        rw [Option.some.injEq] at hp
        subst hp
        exact clampItem_wellformed D s0 e0 hD
  | null => exact absurd hp (by simp [processItem])
  | bool b => exact absurd hp (by simp [processItem])
  | num q => exact absurd hp (by simp [processItem])
  | str s => exact absurd hp (by simp [processItem])
  | arr xs => exact absurd hp (by simp [processItem])

/-- Every record `parse_and_validate` hands to the normalizer satisfies
`start ≤ end` and `start ≤ duration` — the hypotheses of the spacing
invariant hold on every real input of `normalize_highlights`. -/
lemma parse_and_validate_wellformed (loads : String → Option JVal)
    (raw_text : String) (D : ℚ) (hD : 0 ≤ D) :
    ∀ h ∈ parse_and_validate loads raw_text D,
      h.start_seconds ≤ h.end_seconds ∧ h.start_seconds ≤ D := by
  intro h hh
  rw [parse_and_validate] at hh
  cases hld : loads (extractJsonText raw_text) with
  | none => rw [hld] at hh; simp at hh
  | some data =>
    rw [hld] at hh
    dsimp only at hh
    cases hjg : jGet data "highlights" with
    | none => rw [hjg] at hh; simp at hh
    | some v =>
      rw [hjg] at hh
      cases v with
      | arr items =>
        simp only at hh
        obtain ⟨item, _, hp⟩ := List.mem_filterMap.mp hh
        exact processItem_wellformed D hD item h hp
      | null => simp at hh
      | bool b => simp at hh
      | num q => simp at hh
      | str s => simp at hh
      | obj fs => simp at hh

/-! ### Lemmas: the retry loop -/

/-- Behaviour of the loop when every call raises a retryable exception:
`remaining + 1` calls and `remaining` sleeps happen and the exception of the
last call propagates. -/
lemma genRetryAux_exhaust {α : Type} (op : ℕ → CallResult α) (e : ℕ → Exc)
    (jitter : ℕ → ℚ) (backoff : ℚ)
    (hop : ∀ n, op n = .exc (e n))
    (hretry : ∀ n, (e n).kind ≠ .other) :
    ∀ (remaining idx : ℕ) (delay : ℚ),
      (genRetryAux op jitter backoff remaining idx delay).calls = remaining + 1 ∧
      (genRetryAux op jitter backoff remaining idx delay).waits.length = remaining ∧
      (genRetryAux op jitter backoff remaining idx delay).result =
        .error (e (idx + remaining)) := by
  intro remaining
  induction remaining with
  | zero =>
    intro idx delay
    rw [genRetryAux, hop idx]
    simp [hretry idx]
  | succ r ih =>
    intro idx delay
    obtain ⟨h1, h2, h3⟩ := ih (idx + 1) (delay * backoff)
    have hexp : genRetryAux op jitter backoff (r + 1) idx delay =
        ⟨(genRetryAux op jitter backoff r (idx + 1) (delay * backoff)).result,
         ((if (e idx).kind = .resourceExhausted ∧ 0 < (e idx).suggested_delay
           then (e idx).suggested_delay else delay) * (1 + jitter idx)) ::
           (genRetryAux op jitter backoff r (idx + 1) (delay * backoff)).waits,
         (genRetryAux op jitter backoff r (idx + 1) (delay * backoff)).calls + 1⟩ := by
      rw [genRetryAux, hop idx]
      simp [hretry idx]
    rw [hexp]
    have hidx : idx + 1 + r = idx + (r + 1) := by omega
    rw [hidx] at h3
    refine ⟨?_, ?_, h3⟩
    · show (genRetryAux op jitter backoff r (idx + 1) (delay * backoff)).calls + 1 = r + 1 + 1
      rw [h1]
    · show ((genRetryAux op jitter backoff r (idx + 1) (delay * backoff)).waits.length) + 1 = r + 1
      rw [h2]

/-- Wait formula along the loop: the n-th sleep (0-indexed, caused by the
failure of call `idx + n`) is the server hint when positive and the call was
rate limited, else the geometric value `delay * backoff ^ n`, times the
jitter factor `1 + jitter (idx + n)`. -/
lemma genRetryAux_waits {α : Type} (op : ℕ → CallResult α) (e : ℕ → Exc)
    (jitter : ℕ → ℚ) (backoff : ℚ)
    (hop : ∀ n, op n = .exc (e n)) :
    ∀ (remaining idx : ℕ) (delay : ℚ) (n : ℕ)
      (h : n < (genRetryAux op jitter backoff remaining idx delay).waits.length),
      (genRetryAux op jitter backoff remaining idx delay).waits.get ⟨n, h⟩ =
        (if (e (idx + n)).kind = .resourceExhausted ∧ 0 < (e (idx + n)).suggested_delay
         then (e (idx + n)).suggested_delay
         else delay * backoff ^ n) * (1 + jitter (idx + n)) := by
  intro remaining
  induction remaining with
  | zero =>
    intro idx delay n h
    exfalso
    rw [genRetryAux, hop idx] at h
    by_cases hk : (e idx).kind = .other <;> simp [hk] at h
  | succ r ih =>
    intro idx delay n h
    by_cases hk : (e idx).kind = .other
    · exfalso
      rw [genRetryAux, hop idx] at h
      simp [hk] at h
    · have hgoal : (genRetryAux op jitter backoff (r + 1) idx delay).waits =
          ((if (e idx).kind = .resourceExhausted ∧ 0 < (e idx).suggested_delay
            then (e idx).suggested_delay else delay) * (1 + jitter idx)) ::
          (genRetryAux op jitter backoff r (idx + 1) (delay * backoff)).waits := by
        rw [genRetryAux, hop idx]
        simp [hk]
      match n with
      | 0 =>
        simp only [List.get_eq_getElem]
        rw [List.getElem_of_eq hgoal]
        simp
      | m + 1 =>
        have h' := h
        rw [hgoal, List.length_cons] at h'
        have hlen : m < (genRetryAux op jitter backoff r (idx + 1) (delay * backoff)).waits.length :=
          Nat.lt_of_succ_lt_succ h'
        have hih := ih (idx + 1) (delay * backoff) m hlen
        simp only [List.get_eq_getElem] at hih ⊢
        rw [List.getElem_of_eq hgoal, List.getElem_cons_succ, hih]
        have hidx : idx + 1 + m = idx + (m + 1) := by omega
        rw [hidx]
        by_cases hc : (e (idx + (m + 1))).kind = .resourceExhausted ∧
            0 < (e (idx + (m + 1))).suggested_delay
        · rw [if_pos hc, if_pos hc]
        · rw [if_neg hc, if_neg hc, pow_succ]
          ring

/-! ### Lemmas: the ETA estimator -/

lemma le_etaStep (est e : ℚ) : est ≤ etaStep est e := by
  rw [etaStep]
  split
  · exact le_max_left _ _
  · exact le_refl _

lemma le_estAfter (l : List ℚ) : ∀ est : ℚ, est ≤ estAfter est l := by
  induction l with
  | nil => intro est; exact le_refl _
  | cons e tl ih =>
    intro est
    exact le_trans (le_etaStep est e) (ih (etaStep est e))

/-! ### Claim theorems -/

/-- C1 (counterexample): on the concrete scenario A input with total span 100
the normalizer returns 2 entries, not the 3 entries stated in the claim. -/
theorem scenarioA_not_three_entries :
    (normalize_highlights scenarioA 100).length ≠ 3 := by
  rw [scenarioA_eval]
  decide

/-- C1 (amended): on the scenario A input the normalizer output is exactly
the two intervals 1→6 and 10→15: both the 2.0–2.2 and the 2.1–2.3 candidates
are rejected because, after widening, each collides with the widened first
interval under the 2 s gap rule; each surviving entry is exactly 5 s of
duration and the output is sorted ascending by start. -/
theorem scenarioA_normalized :
    normalize_highlights scenarioA 100 = [mkInterval 1 6, mkInterval 10 15] :=
  scenarioA_eval

/-- C5: for every pair of output intervals of `normalize_highlights` with
`a.start < b.start`, the gap `b.start - a.end` is at least the built-in
minimum gap of 2 seconds, provided every input candidate satisfies the
well-formedness guarantee of `parse_and_validate`
(`start ≤ end` and `start ≤ duration_seconds`). -/
theorem spacing_invariant (items : List Highlight) (D : ℚ)
    (hvalid : ∀ x ∈ items, x.start_seconds ≤ x.end_seconds ∧ x.start_seconds ≤ D) :
    ∀ a ∈ normalize_highlights items D, ∀ b ∈ normalize_highlights items D,
      a.start_seconds < b.start_seconds →
      2 ≤ b.start_seconds - a.end_seconds := by
  obtain ⟨hpair, hprov⟩ := normalize_highlights_spec items D
  intro a ha b hb hlt
  have hsym : List.Pairwise (fun u v => OrdSep u v ∨ OrdSep v u)
      (normalize_highlights items D) := hpair.imp Or.inl
  have hforall := hsym.forall (fun u v h => h.symm)
  have hne : a ≠ b := by
    intro he
    rw [he] at hlt
    exact lt_irrefl _ hlt
  have hcase : OrdSep a b ∨ OrdSep b a := hforall ha hb hne
  have hab : OrdSep a b := by
    rcases hcase with h | h
    · exact h
    · exact absurd h.1 (not_le.mpr hlt)
  have hbend : a.start_seconds - 2 < b.end_seconds := by
    obtain ⟨y, hy, hbform⟩ := hprov b hb
    obtain ⟨x, hx, haform⟩ := hprov a ha
    have haD : a.start_seconds ≤ D := by
      rw [haform]
      exact (hvalid x hx).2
    have hbstart : b.start_seconds = y.start_seconds := by rw [hbform]
    have hbendq : b.end_seconds = adjustEnd D y := by rw [hbform]
    rw [hbendq, adjustEnd]
    split
    · refine lt_min ?_ ?_
      · rw [← hbstart]
        linarith
      · linarith
    · have : y.start_seconds ≤ y.end_seconds := (hvalid y hy).1
      rw [← hbstart] at this
      linarith
  have hnot : ¬(b.start_seconds < a.end_seconds + 2) := by
    intro hcon
    exact hab.2 ⟨hcon, hbend⟩
  linarith [not_lt.mp hnot]

/-- C5 witness: the spacing bound instantiated on the scenario A data. -/
theorem spacing_invariant_witness :
    (∀ x ∈ scenarioA, x.start_seconds ≤ x.end_seconds ∧ x.start_seconds ≤ (100 : ℚ)) ∧
    2 ≤ (mkInterval 10 15).start_seconds - (mkInterval 1 6).end_seconds := by
  refine ⟨?_, ?_⟩
  · intro x hx
    simp only [scenarioA, mkInterval, List.mem_cons, List.not_mem_nil, or_false] at hx
    rcases hx with h | h | h | h <;> subst h <;> norm_num
  · refine spacing_invariant scenarioA 100 ?_ (mkInterval 1 6) ?_ (mkInterval 10 15) ?_ ?_
    · intro x hx
      simp only [scenarioA, mkInterval, List.mem_cons, List.not_mem_nil, or_false] at hx
      rcases hx with h | h | h | h <;> subst h <;> norm_num
    · rw [scenarioA_eval]; simp
    · rw [scenarioA_eval]; simp
    · norm_num [mkInterval]

/-- C6: the interval normalizer is idempotent: renormalizing its own output
with the same total span changes nothing. -/
theorem normalize_highlights_idempotent (items : List Highlight) (D : ℚ) :
    normalize_highlights (normalize_highlights items D) D =
      normalize_highlights items D := by
  cases hN : normalize_highlights items D with
  | nil => simp [normalize_highlights]
  | cons a l =>
    have hsorted : List.Sorted startLE (a :: l) := by
      rw [← hN]; exact normalize_output_sorted items D
    have hsep : List.Pairwise Sep (a :: l) := by
      rw [← hN]; exact normalize_output_sep items D
    have hfix : ∀ x ∈ (a :: l), adjustEnd D x = x.end_seconds := by
      rw [← hN]; exact normalize_output_fixed items D
    have hlen : (a :: l).length ≤ 10 := by
      rw [← hN]; exact normalize_length_le items D
    show ((List.insertionSort startLE (a :: l)).foldl (normStep D) []).take 10 = a :: l
    rw [hsorted.insertionSort_eq,
      foldl_normStep_id D (a :: l) [] hfix hsep (by simp),
      List.nil_append, List.take_of_length_le hlen]

/-- C10: `normalize_highlights` never modifies an interval start or any
metadata field: every output entry is an input candidate with at most its end
timestamp rewritten, and the rewritten end is the widened value
`min (start + 5) duration_seconds`. -/
theorem normalize_frame_effect (items : List Highlight) (D : ℚ) :
    ∀ h ∈ normalize_highlights items D,
      ∃ x ∈ items,
        h.start_seconds = x.start_seconds ∧
        (h.end_seconds = x.end_seconds ∨
          h.end_seconds = min (x.start_seconds + 5) D) ∧
        h = { x with end_seconds := h.end_seconds } := by
  intro h hh
  obtain ⟨x, hx, hform⟩ := (normalize_highlights_spec items D).2 h hh
  refine ⟨x, hx, ?_, ?_, ?_⟩
  · rw [hform]
  · rw [hform]
    show adjustEnd D x = x.end_seconds ∨ adjustEnd D x = min (x.start_seconds + 5) D
    rw [adjustEnd]
    split
    · exact Or.inr rfl
    · exact Or.inl rfl
  · rw [hform]

/-- C10 witness: the frame-effect property instantiated on the first output
entry of scenario A. -/
theorem normalize_frame_effect_witness :
    mkInterval 1 6 ∈ normalize_highlights scenarioA 100 ∧
    ∃ x ∈ scenarioA,
      (mkInterval 1 6).start_seconds = x.start_seconds ∧
      ((mkInterval 1 6).end_seconds = x.end_seconds ∨
        (mkInterval 1 6).end_seconds = min (x.start_seconds + 5) (100 : ℚ)) ∧
      mkInterval 1 6 = { x with end_seconds := (mkInterval 1 6).end_seconds } := by
  have hmem : mkInterval 1 6 ∈ normalize_highlights scenarioA 100 := by
    rw [scenarioA_eval]; simp
  exact ⟨hmem, normalize_frame_effect scenarioA 100 (mkInterval 1 6) hmem⟩

/-- C3: if every call raises a `TransientUnavailable`-classified exception
(`ServiceUnavailable` or `DeadlineExceeded`), the invoker with
`max_retries = k` performs exactly `k` retries — `k + 1` calls and `k`
sleeps — and then propagates the exception of the last call. -/
theorem retry_exhaustion {α : Type} (op : ℕ → CallResult α) (e : ℕ → Exc)
    (jitter : ℕ → ℚ) (k : ℕ) (initial_delay backoff : ℚ)
    (hop : ∀ n, op n = .exc (e n))
    (htrans : ∀ n, (e n).kind = .serviceUnavailable ∨ (e n).kind = .deadlineExceeded) :
    (generate_with_retry op jitter k initial_delay backoff).calls = k + 1 ∧
    (generate_with_retry op jitter k initial_delay backoff).waits.length = k ∧
    (generate_with_retry op jitter k initial_delay backoff).result = .error (e k) := by
  have hretry : ∀ n, (e n).kind ≠ .other := by
    intro n
    rcases htrans n with h | h <;> simp [h]
  obtain ⟨h1, h2, h3⟩ := genRetryAux_exhaust op e jitter backoff hop hretry k 0
    (initialEffectiveDelay initial_delay)
  exact ⟨h1, h2, by simpa using h3⟩

/-- C3 witness: an always-`ServiceUnavailable` operation under
`max_retries = 2` is called 3 times, sleeps twice, and the last exception
propagates. -/
theorem retry_exhaustion_witness :
    (∀ n : ℕ, (fun _ : ℕ => CallResult.exc (α := Unit) ⟨.serviceUnavailable, -1⟩) n =
      .exc ((fun _ : ℕ => (⟨.serviceUnavailable, -1⟩ : Exc)) n)) ∧
    (generate_with_retry (fun _ : ℕ => CallResult.exc (α := Unit) ⟨.serviceUnavailable, -1⟩)
      (fun _ => 1/10) 2 5 (17/10)).calls = 3 := by
  refine ⟨fun n => rfl, ?_⟩
  have h := retry_exhaustion (α := Unit)
    (fun _ => CallResult.exc ⟨.serviceUnavailable, -1⟩)
    (fun _ => (⟨.serviceUnavailable, -1⟩ : Exc))
    (fun _ => 1/10) 2 5 (17/10) (fun n => rfl) (fun n => Or.inl rfl)
  exact h.1

/-- C4: if the first call raises an exception outside the caught classes
(classified `Fatal`), the invoker performs zero retries and zero sleeps and
propagates that exception unchanged after a single call. -/
theorem retry_fatal_short_circuit {α : Type} (op : ℕ → CallResult α) (e : Exc)
    (jitter : ℕ → ℚ) (k : ℕ) (initial_delay backoff : ℚ)
    (hop : op 0 = .exc e) (hfatal : e.kind = .other) :
    generate_with_retry op jitter k initial_delay backoff =
      ⟨.error e, [], 1⟩ := by
  rw [generate_with_retry, genRetryAux, hop]
  simp [hfatal]

/-- C4 witness: a first-call fatal exception propagates immediately. -/
theorem retry_fatal_short_circuit_witness :
    (fun _ : ℕ => CallResult.exc (α := Unit) ⟨.other, -1⟩) 0 =
      .exc (⟨.other, -1⟩ : Exc) ∧
    generate_with_retry (fun _ : ℕ => CallResult.exc (α := Unit) ⟨.other, -1⟩)
      (fun _ => 1/10) 6 5 (17/10) = ⟨.error ⟨.other, -1⟩, [], 1⟩ :=
  ⟨rfl, retry_fatal_short_circuit (fun _ => CallResult.exc ⟨.other, -1⟩)
    ⟨.other, -1⟩ (fun _ => 1/10) 6 5 (17/10) rfl rfl⟩

/-- C8: in a run in which every call fails, the n-th wait (0-indexed, so
attempt `n + 1`) equals the jitter factor `1 + jitter n ∈ [1.05, 1.25]`
times either the positive server-suggested delay (rate-limited case only) or
the geometric base `max(0.5, initial_delay) * backoff ^ n`. -/
theorem backoff_wait_formula {α : Type} (op : ℕ → CallResult α) (e : ℕ → Exc)
    (jitter : ℕ → ℚ) (k : ℕ) (initial_delay backoff : ℚ)
    (hop : ∀ n, op n = .exc (e n))
    (hjit : ∀ n, 1/20 ≤ jitter n ∧ jitter n ≤ 1/4) :
    ∀ (n : ℕ)
      (h : n < (generate_with_retry op jitter k initial_delay backoff).waits.length),
      21/20 ≤ 1 + jitter n ∧ 1 + jitter n ≤ 5/4 ∧
      (generate_with_retry op jitter k initial_delay backoff).waits.get ⟨n, h⟩ =
        (if (e n).kind = .resourceExhausted ∧ 0 < (e n).suggested_delay
         then (e n).suggested_delay
         else initialEffectiveDelay initial_delay * backoff ^ n) * (1 + jitter n) := by
  intro n h
  obtain ⟨hj1, hj2⟩ := hjit n
  refine ⟨by linarith, by linarith, ?_⟩
  have := genRetryAux_waits op e jitter backoff hop k 0
    (initialEffectiveDelay initial_delay) n h
  simpa using this

/-- C8 witness: on a run of always rate-limited failures with server hint 3
and fixed jitter draw 0.1, the first wait equals `3 * 1.1 = 3.3`. -/
theorem backoff_wait_formula_witness :
    (∀ n : ℕ, 1/20 ≤ (fun _ : ℕ => (1/10 : ℚ)) n ∧ (fun _ : ℕ => (1/10 : ℚ)) n ≤ 1/4) ∧
    ∃ h : 0 < (generate_with_retry
        (fun _ : ℕ => CallResult.exc (α := Unit) ⟨.resourceExhausted, 3⟩)
        (fun _ => 1/10) 6 5 (17/10)).waits.length,
      (generate_with_retry
        (fun _ : ℕ => CallResult.exc (α := Unit) ⟨.resourceExhausted, 3⟩)
        (fun _ => 1/10) 6 5 (17/10)).waits.get ⟨0, h⟩ = 33/10 := by
  have hlen : (generate_with_retry
      (fun _ : ℕ => CallResult.exc (α := Unit) ⟨.resourceExhausted, 3⟩)
      (fun _ => 1/10) 6 5 (17/10)).waits.length = 6 :=
    (genRetryAux_exhaust (α := Unit)
      (fun _ => CallResult.exc ⟨.resourceExhausted, 3⟩)
      (fun _ => (⟨.resourceExhausted, 3⟩ : Exc))
      (fun _ => 1/10) (17/10) (fun n => rfl) (fun n => by simp) 6 0
      (initialEffectiveDelay 5)).2.1
  refine ⟨fun n => by norm_num, ?_⟩
  have h0 : 0 < (generate_with_retry
      (fun _ : ℕ => CallResult.exc (α := Unit) ⟨.resourceExhausted, 3⟩)
      (fun _ => 1/10) 6 5 (17/10)).waits.length := by
    rw [hlen]; norm_num
  refine ⟨h0, ?_⟩
  have hmain := backoff_wait_formula (α := Unit)
    (fun _ => CallResult.exc ⟨.resourceExhausted, 3⟩)
    (fun _ => (⟨.resourceExhausted, 3⟩ : Exc))
    (fun _ => 1/10) 6 5 (17/10) (fun n => rfl) (fun n => by norm_num) 0 h0
  have heq := hmain.2.2
  rw [heq]
  norm_num

/-- C9: along the polling loop the estimate is monotonically non-decreasing,
the revision rule replaces it by `max(est, elapsed * 1.25)` exactly when
elapsed reaches 90% of it, and the reported remaining time is never
negative. -/
theorem eta_monotone_nonneg (est0 : ℚ) (samples : List ℚ) :
    (∀ i j : ℕ, i ≤ j → estAt est0 samples i ≤ estAt est0 samples j) ∧
    (∀ est e : ℚ, est * (9/10) ≤ e → etaStep est e = max est (e * (5/4))) ∧
    (∀ est e : ℚ, 0 ≤ reportedRemaining est e) := by
  refine ⟨?_, ?_, ?_⟩
  · intro i j hij
    have hsplit : samples.take i ++ (samples.take j).drop i = samples.take j := by
      conv_rhs => rw [← List.take_append_drop i (samples.take j)]
      rw [List.take_take, Nat.min_eq_left hij]
    rw [estAt, estAt, ← hsplit]
    show estAfter est0 _ ≤ List.foldl etaStep est0 (_ ++ _)
    rw [List.foldl_append]
    exact le_estAfter _ _
  · intro est e h
    rw [etaStep, if_pos h]
  · intro est e
    exact le_max_left _ _

/-- C9 witness: the monotonicity instantiated on a concrete seed estimate and
sample sequence. -/
theorem eta_monotone_nonneg_witness :
    (1 : ℕ) ≤ 3 ∧
    estAt (initial_processing_estimate 1000000 (some 10)) [10, 26, 40] 1 ≤
      estAt (initial_processing_estimate 1000000 (some 10)) [10, 26, 40] 3 :=
  ⟨by norm_num,
    (eta_monotone_nonneg (initial_processing_estimate 1000000 (some 10))
      [10, 26, 40]).1 1 3 (by norm_num)⟩

/-- C2 (counterexample): a successful `select_highlights` run that uploaded
the asset itself issues no remote delete at all, contradicting the claim
that every exit path of the job lifecycle workflows tears the upload down. -/
theorem select_highlights_no_delete_counterexample :
    (select_highlights false true .ready true).1 = .success ∧
    WfEvent.upload ∈ (select_highlights false true .ready true).2 ∧
    WfEvent.deleteFile ∉ (select_highlights false true .ready true).2 := by
  decide

/-- C2 (amended): in `select_and_extract_thumbnails`, whenever the run
reaches the generation phase and the workflow uploaded the asset itself, a
remote delete is issued on both the success and the exception exit of that
phase and a failing delete never changes the outcome or the rest of the
trace; on the reuse path no delete is issued; exits before the generation
phase (processing failure, interrupt while polling) issue no delete; and
`select_highlights` never issues a delete on any path. -/
theorem thumbnails_teardown_amended :
    (∀ genOk deleteOk : Bool,
      WfEvent.deleteFile ∈ (select_and_extract_thumbnails false true .ready genOk deleteOk).2 ∧
      select_and_extract_thumbnails false true .ready genOk deleteOk =
        select_and_extract_thumbnails false true .ready genOk (¬deleteOk)) ∧
    (∀ genOk deleteOk : Bool,
      WfEvent.deleteFile ∉ (select_and_extract_thumbnails true true .ready genOk deleteOk).2) ∧
    (∀ genOk deleteOk : Bool,
      WfEvent.deleteFile ∉ (select_and_extract_thumbnails false true .failed genOk deleteOk).2 ∧
      WfEvent.deleteFile ∉ (select_and_extract_thumbnails false true .interrupt genOk deleteOk).2) ∧
    (∀ (file_id getFileOk : Bool) (poll : PollResult) (genOk : Bool),
      WfEvent.deleteFile ∉ (select_highlights file_id getFileOk poll genOk).2) := by
  refine ⟨?_, ?_, ?_, ?_⟩
  · intro genOk deleteOk
    cases genOk <;> cases deleteOk <;> exact ⟨by decide, by decide⟩
  · intro genOk deleteOk
    cases genOk <;> cases deleteOk <;> decide
  · intro genOk deleteOk
    cases genOk <;> cases deleteOk <;> exact ⟨by decide, by decide⟩
  · intro file_id getFileOk poll genOk
    cases file_id <;> cases getFileOk <;> cases poll <;> cases genOk <;> decide

/-- C7: whenever strict parsing of the extracted candidate text fails, the
highlight extractor returns the empty list and the edit-guide extractor
returns the fixed empty guide structure — never a partial result — for
every possible post-parse behaviour. -/
theorem parse_failure_fails_closed
    (loads : String → Option JVal) (processEdits : JVal → ℚ → ℕ → JVal)
    (raw_text : String) (duration_seconds : ℚ) (max_edits : ℕ)
    (hfail : loads (extractJsonText raw_text) = none) :
    parse_and_validate loads raw_text duration_seconds = [] ∧
    parse_and_validate_json loads processEdits raw_text duration_seconds max_edits =
      emptyEditGuide := by
  rw [parse_and_validate, parse_and_validate_json, hfail]
  exact ⟨rfl, rfl⟩

/-- C7 witness: a parser that rejects everything makes both extractors
return their empty structures on a concrete garbage input. -/
theorem parse_failure_fails_closed_witness :
    (fun _ : String => (none : Option JVal)) (extractJsonText "no json here") = none ∧
    parse_and_validate (fun _ => none) "no json here" 100 = [] ∧
    parse_and_validate_json (fun _ => none) (fun d _ _ => d) "no json here" 100 50 =
      emptyEditGuide := by
  have h := parse_failure_fails_closed (fun _ => none) (fun d _ _ => d)
    "no json here" 100 50 rfl
  exact ⟨rfl, h.1, h.2⟩

end VideoAnalyzer
